import Mathlib

/-!
Shallow embedding of the warming-threshold-crossing analysis of the
notebook cmip6_historical_ssp_gmtas_calculate_warming_thresholds_timing
(section "calculate when global-mean temperature anomalies cross
temperature thresholds", plus the save and summary cells).

Anomaly values are modelled as rationals, years as integers.  An
undefined (NaN) smoothed entry is modelled as Option.none, and a Python
exception as Except.error.
-/

/-- An annual anomaly series: the year axis paired with one anomaly value
per year, as in the per-model DataArray cmip6_gmtm_anom.sel(model=mi). -/
structure AnomalySeries where
  years : List ℤ
  values : List ℚ
deriving DecidableEq

/-- The rolling mean annual.rolling(year=w, center=True).mean() with the
default min_periods (= w): the entry at position i carries the trailing
window ending at position i + (w - 1) / 2 (the pandas/xarray centring
convention), so it is the mean of the w values at positions
i + (w - 1) / 2 + 1 - w through i + (w - 1) / 2, and it is undefined (NaN)
whenever that window is not fully inside the series. -/
def rolling_mean (vals : List ℚ) (w : ℕ) : List (Option ℚ) :=
  (List.range vals.length).map (fun i =>
    if w ≤ i + (w - 1) / 2 + 1 ∧ i + (w - 1) / 2 < vals.length then
      some ((((vals.drop (i + (w - 1) / 2 + 1 - w)).take w).sum) / (w : ℚ))
    else none)

/-- The year axis filtered to the positions whose smoothed value is
defined and ≥ temp: smoothed.year.where(smoothed >= temp, drop=True).
NaN >= temp is False, so undefined entries are dropped. -/
def qualifying_years : List ℤ → List (Option ℚ) → ℚ → List ℤ
  | y :: ys, o :: os, t =>
    match o with
    | some v =>
      if t ≤ v then y :: qualifying_years ys os t else qualifying_years ys os t
    | none => qualifying_years ys os t
  | _, _, _ => []

/-- The ValueError message numpy raises when reducing an empty array. -/
def empty_min_msg : String :=
  "zero-size array to reduction operation minimum which has no identity"

/-- (smoothed.year.where(smoothed >= temp, drop=True)).year.min().item():
the smallest year whose smoothed value qualifies; taking .min() of an
empty selection raises a ValueError. -/
def year_temp_smoothed (s : AnomalySeries) (temp : ℚ) (w : ℕ) :
    Except String ℤ :=
  match (qualifying_years s.years (rolling_mean s.values w) temp).min? with
  | some y => .ok y
  | none => .error empty_min_msg

/-- The notebook's vars() dictionary restricted to the accumulation lists:
the key string 'firstyear_rolling_' + str(temp) + 'C' is determined by the
threshold alone, so the state is an association list keyed by the
threshold (newest binding first, as assignment overwrites). -/
abbrev Vars := List (ℚ × List ℤ)

/-- Reading vars()[key] for the key built from threshold t. -/
def lookupA : Vars → ℚ → Option (List ℤ)
  | [], _ => none
  | p :: ps, t => if p.1 = t then some p.2 else lookupA ps t

/-- Writing vars()[key] for the key built from threshold t. -/
def insertA (s : Vars) (t : ℚ) (v : List ℤ) : Vars :=
  (t, v) :: s

/-- The inner model loop for a fixed threshold: compute year_temp_smoothed
for each model in order and append it to the list stored under the
threshold's key. -/
def firstyear_rolling_append (t : ℚ) (w : ℕ) :
    List (String × AnomalySeries) → Vars → Except String Vars
  | [], s => .ok s
  | m :: ms, s =>
    match year_temp_smoothed m.2 t w with
    | .error e => .error e
    | .ok y =>
      firstyear_rolling_append t w ms
        (insertA s t (((lookupA s t).getD []) ++ [y]))

/-- The whole accumulation cell: for each threshold, reset its key to the
empty list, then run the model loop. -/
def firstyear_cell (w : ℕ) (models : List (String × AnomalySeries)) :
    List ℚ → Vars → Except String Vars
  | [], s => .ok s
  | t :: ts, s =>
    match firstyear_rolling_append t w models (insertA s t []) with
    | .error e => .error e
    | .ok s' => firstyear_cell w models ts s'

/-- The per-threshold column of crossing years as a pure value (used to
state what the accumulation cell stores). -/
def firstyear_col (t : ℚ) (w : ℕ) :
    List (String × AnomalySeries) → Except String (List ℤ)
  | [] => .ok []
  | m :: ms =>
    match year_temp_smoothed m.2 t w with
    | .error e => .error e
    | .ok y =>
      match firstyear_col t w ms with
      | .error e => .error e
      | .ok ys => .ok (y :: ys)

/-- np.vstack of the per-threshold accumulation lists, one row per
threshold, in threshold order. -/
def all_temps_rolling (temps : List ℚ) (o : Vars) : List (List ℤ) :=
  temps.map (fun t => (lookupA o t).getD [])

/-- The transposed table: row mi pairs the mi-th model identifier with the
mi-th entry of every threshold column (the DataFrame built from
all_temps_rolling.T with index = cmip6_models). -/
def table_rows (cols : List (List ℤ)) :
    List (String × AnomalySeries) → ℕ → List (String × List ℤ)
  | [], _ => []
  | m :: ms, mi =>
    (m.1, cols.map (fun c => c.getD mi 0)) :: table_rows cols ms (mi + 1)

/-- The Bool-valued comparison on model identifiers used by sort_index. -/
def modelLe (a b : String × List ℤ) : Bool := decide (a.1 ≤ b.1)

/-- cmip6_models_warminglevels_df_rolling after .sort_index(). -/
def warminglevels_df (models : List (String × AnomalySeries)) (temps : List ℚ)
    (o : Vars) : List (String × List ℤ) :=
  (table_rows (all_temps_rolling temps o) models 0).mergeSort modelLe

/-! ### Characterisation of the qualifying-year selection -/

theorem qualifying_years_nil {sm : List (Option ℚ)} {t : ℚ} :
    qualifying_years [] sm t = [] := by
  cases sm <;> rfl

theorem mem_qualifying_years {ys : List ℤ} {sm : List (Option ℚ)} {t : ℚ}
    {z : ℤ} :
    z ∈ qualifying_years ys sm t ↔
      ∃ i : ℕ, ys[i]? = some z ∧ ∃ v, sm[i]? = some (some v) ∧ t ≤ v := by
  induction ys generalizing sm with
  | nil =>
    simp only [qualifying_years_nil, List.not_mem_nil, List.getElem?_nil,
      false_iff]
    rintro ⟨i, h, -⟩
    exact (Option.some_ne_none z h.symm).elim
  | cons y ys ih =>
    cases sm with
    | nil =>
      simp only [qualifying_years, List.not_mem_nil, List.getElem?_nil,
        false_iff]
      rintro ⟨i, -, v, h, -⟩
      exact (Option.some_ne_none _ h.symm).elim
    | cons o os =>
      have shift :
          (∃ i : ℕ, ys[i]? = some z ∧ ∃ v, os[i]? = some (some v) ∧ t ≤ v) ↔
            ∃ i : ℕ, (y :: ys)[i + 1]? = some z ∧
              ∃ v, (o :: os)[i + 1]? = some (some v) ∧ t ≤ v := by
        simp
      cases o with
      | none =>
        rw [qualifying_years, ih, shift]
        constructor
        · rintro ⟨i, h1, v, h2, h3⟩
          exact ⟨i + 1, h1, v, h2, h3⟩
        · rintro ⟨i, h1, v, h2, h3⟩
          cases i with
          | zero => simp at h2
          | succ i => exact ⟨i, by simpa using h1, v, by simpa using h2, h3⟩
      | some v0 =>
        by_cases hv : t ≤ v0
        · rw [qualifying_years, if_pos hv, List.mem_cons, ih, shift]
          constructor
          · rintro (rfl | ⟨i, h1, v, h2, h3⟩)
            · exact ⟨0, by simp, v0, by simp, hv⟩
            · exact ⟨i + 1, h1, v, h2, h3⟩
          · rintro ⟨i, h1, v, h2, h3⟩
            cases i with
            | zero =>
              left
              simpa using h1.symm
            | succ i =>
              right
              exact ⟨i, by simpa using h1, v, by simpa using h2, h3⟩
        · rw [qualifying_years, if_neg hv, ih, shift]
          constructor
          · rintro ⟨i, h1, v, h2, h3⟩
            exact ⟨i + 1, h1, v, h2, h3⟩
          · rintro ⟨i, h1, v, h2, h3⟩
            cases i with
            | zero =>
              exfalso
              apply hv
              have : some v0 = some v := by simpa using h2
              rwa [Option.some_inj.mp this]
            | succ i => exact ⟨i, by simpa using h1, v, by simpa using h2, h3⟩

theorem min?_spec {l : List ℤ} {y : ℤ} (h : l.min? = some y) :
    y ∈ l ∧ ∀ b ∈ l, y ≤ b :=
  ⟨List.min?_mem min_choice h,
    fun b hb =>
      ((List.le_min?_iff (fun _ _ _ => le_min_iff) h).1 (le_refl y)) b hb⟩

theorem min?_le_of_subset {l₁ l₂ : List ℤ} (hsub : l₁ ⊆ l₂) {y₁ : ℤ}
    (h₁ : l₁.min? = some y₁) : ∃ y₂, l₂.min? = some y₂ ∧ y₂ ≤ y₁ := by
  have h2mem : y₁ ∈ l₂ := hsub (min?_spec h₁).1
  obtain ⟨y₂, hy₂⟩ := Option.isSome_iff_exists.mp (List.isSome_min?_of_mem h2mem)
  exact ⟨y₂, hy₂, (min?_spec hy₂).2 y₁ h2mem⟩

theorem year_temp_smoothed_ok_iff {s : AnomalySeries} {t : ℚ} {w : ℕ}
    {y : ℤ} :
    year_temp_smoothed s t w = .ok y ↔
      (qualifying_years s.years (rolling_mean s.values w) t).min? = some y := by
  unfold year_temp_smoothed
  cases h : (qualifying_years s.years (rolling_mean s.values w) t).min? <;>
    simp [h]

theorem year_temp_smoothed_error_iff {s : AnomalySeries} {t : ℚ} {w : ℕ} :
    year_temp_smoothed s t w = .error empty_min_msg ↔
      qualifying_years s.years (rolling_mean s.values w) t = [] := by
  unfold year_temp_smoothed
  rw [← List.min?_eq_none_iff]
  cases h : (qualifying_years s.years (rolling_mean s.values w) t).min? <;>
    simp [h]

theorem length_rolling_mean (vals : List ℚ) (w : ℕ) :
    (rolling_mean vals w).length = vals.length := by
  simp [rolling_mean]

/-- C1: whenever some position has a defined smoothed value ≥ t, the
selection returns (without raising) the smallest year among the positions
whose smoothed value is defined and ≥ t. -/
theorem c1_first_crossing_year_min (s : AnomalySeries) (t : ℚ) (w : ℕ)
    (hlen : s.years.length = s.values.length)
    (hex : ∃ (i : ℕ) (v : ℚ), (rolling_mean s.values w)[i]? = some (some v) ∧ t ≤ v) :
    ∃ y, year_temp_smoothed s t w = .ok y ∧
      (∃ (i : ℕ) (v : ℚ), s.years[i]? = some y ∧
        (rolling_mean s.values w)[i]? = some (some v) ∧ t ≤ v) ∧
      ∀ (i : ℕ) (z : ℤ) (v : ℚ), s.years[i]? = some z →
        (rolling_mean s.values w)[i]? = some (some v) → t ≤ v → y ≤ z := by
  obtain ⟨i, v, h1, h2⟩ := hex
  have hi : i < s.years.length := by
    have := List.getElem?_eq_some_iff.mp h1
    obtain ⟨hlt, -⟩ := this
    rw [length_rolling_mean] at hlt
    omega
  have hz : s.years[i]? = some s.years[i] := List.getElem?_eq_getElem hi
  have hmem : s.years[i] ∈ qualifying_years s.years (rolling_mean s.values w) t :=
    mem_qualifying_years.mpr ⟨i, hz, v, h1, h2⟩
  obtain ⟨y, hy⟩ :=
    Option.isSome_iff_exists.mp (List.isSome_min?_of_mem hmem)
  obtain ⟨hymem, hymin⟩ := min?_spec hy
  obtain ⟨i0, hy0, v0, hv0, htv0⟩ := mem_qualifying_years.mp hymem
  refine ⟨y, year_temp_smoothed_ok_iff.mpr hy, ⟨i0, v0, hy0, hv0, htv0⟩, ?_⟩
  intro j z v' hjz hjv htv
  exact hymin z (mem_qualifying_years.mpr ⟨j, hjz, v', hjv, htv⟩)

theorem c1_witness :
    ∃ y, year_temp_smoothed ⟨[2000, 2001], [3, 3]⟩ 2 1 = .ok y ∧
      (∃ (i : ℕ) (v : ℚ), (AnomalySeries.mk [2000, 2001] [3, 3]).years[i]? = some y ∧
        (rolling_mean (AnomalySeries.mk [2000, 2001] [3, 3]).values 1)[i]? =
          some (some v) ∧ (2:ℚ) ≤ v) ∧
      ∀ (i : ℕ) (z : ℤ) (v : ℚ), (AnomalySeries.mk [2000, 2001] [3, 3]).years[i]? = some z →
        (rolling_mean (AnomalySeries.mk [2000, 2001] [3, 3]).values 1)[i]? =
          some (some v) → 2 ≤ v → y ≤ z :=
  c1_first_crossing_year_min ⟨[2000, 2001], [3, 3]⟩ 2 1 rfl
    ⟨0, 3, by with_unfolding_all rfl,
      of_decide_eq_true (by with_unfolding_all rfl)⟩

/-- C10: for a fixed series and window, raising the threshold can only
delay the crossing year, and a threshold that already raises (is
unreached) stays unreached for any higher threshold. -/
theorem c10_threshold_monotone (s : AnomalySeries) (t₁ t₂ : ℚ) (w : ℕ)
    (ht : t₁ ≤ t₂) :
    (∀ y₂, year_temp_smoothed s t₂ w = .ok y₂ →
      ∃ y₁, year_temp_smoothed s t₁ w = .ok y₁ ∧ y₁ ≤ y₂) ∧
    (year_temp_smoothed s t₁ w = .error empty_min_msg →
      year_temp_smoothed s t₂ w = .error empty_min_msg) := by
  have hsub : qualifying_years s.years (rolling_mean s.values w) t₂ ⊆
      qualifying_years s.years (rolling_mean s.values w) t₁ := by
    intro z hz
    obtain ⟨i, h1, v, h2, h3⟩ := mem_qualifying_years.mp hz
    exact mem_qualifying_years.mpr ⟨i, h1, v, h2, le_trans ht h3⟩
  constructor
  · intro y₂ h₂
    obtain ⟨y₁, hy₁, hle⟩ :=
      min?_le_of_subset hsub (year_temp_smoothed_ok_iff.mp h₂)
    exact ⟨y₁, year_temp_smoothed_ok_iff.mpr hy₁, hle⟩
  · intro h₁
    have : qualifying_years s.years (rolling_mean s.values w) t₂ = [] :=
      List.subset_nil.mp
        ((year_temp_smoothed_error_iff.mp h₁) ▸ hsub)
    exact year_temp_smoothed_error_iff.mpr this

theorem c10_witness :
    (0 : ℚ) ≤ 1 ∧
      ∃ y₁, year_temp_smoothed ⟨[2000], [5]⟩ 0 1 = .ok y₁ ∧ y₁ ≤ 2000 :=
  ⟨of_decide_eq_true (by with_unfolding_all rfl),
    (c10_threshold_monotone ⟨[2000], [5]⟩ 0 1 1
        (of_decide_eq_true (by with_unfolding_all rfl))).1 2000
      (by with_unfolding_all rfl)⟩

/-- C2: on a series that never reaches the threshold (all smoothed values
defined at positions 1..5 equal 1/2 < 2), the selection raises numpy's
empty-reduction ValueError instead of signalling an explicit "unreached"
outcome. -/
theorem c2_unreached_raises :
    year_temp_smoothed
      ⟨[2000, 2001, 2002, 2003, 2004, 2005],
        [1 / 2, 1 / 2, 1 / 2, 1 / 2, 1 / 2, 1 / 2]⟩ 2 2 =
      .error empty_min_msg := by
  with_unfolding_all rfl

/-- C9: a series whose year axis has duplicate (hence non-strictly
monotonic) years is processed without any validation: the analyzer
computes and returns a crossing year instead of rejecting the input. -/
theorem c9_no_input_validation :
    year_temp_smoothed ⟨[2000, 2000], [5, 5]⟩ 1 1 = .ok 2000 := by
  with_unfolding_all rfl

/-- C4: when one model of the ensemble never reaches the threshold, the
accumulation cell aborts with numpy's empty-reduction ValueError, so no
summary is ever computed over the remaining models; the "unreached" entry
is not ignored. -/
theorem c4_summary_crash_on_unreached :
    firstyear_cell 2
      [("A", ⟨[2000, 2001, 2002, 2003], [0, 4, 4, 4]⟩),
        ("B", ⟨[2000, 2001, 2002, 2003], [0, 0, 0, 0]⟩)]
      [2] [] = .error empty_min_msg := by
  with_unfolding_all rfl

/-- C6: when the window exceeds the series length, the smoothed series
still has one entry per input position and every entry is undefined; the
operation is total (no crash). -/
theorem c6_window_larger_all_undefined (vals : List ℚ) (w : ℕ)
    (h : vals.length < w) :
    (rolling_mean vals w).length = vals.length ∧
      ∀ o ∈ rolling_mean vals w, o = none := by
  refine ⟨length_rolling_mean vals w, ?_⟩
  intro o ho
  rw [rolling_mean, List.mem_map] at ho
  obtain ⟨i, hi, rfl⟩ := ho
  rw [List.mem_range] at hi
  rw [if_neg]
  omega

theorem c6_witness :
    (2 : ℕ) < 3 ∧ ((rolling_mean [1, 2] 3).length = 2 ∧
      ∀ o ∈ rolling_mean [1, 2] 3, o = none) :=
  ⟨by decide, c6_window_larger_all_undefined [1, 2] 3 (by decide)⟩

/-- C3 counterexample: for vals = [0, 2] and W = 2 the window claimed by
the spec for position 0 (positions 0−2/2+1 = 0 through 0+2/2 = 1) lies
fully within bounds with mean (0+2)/2, yet the smoothed series is
undefined at position 0: the library centring places the even window at
i−W/2 … i+W/2−1, one step earlier than claimed. -/
theorem c3_counterexample :
    ¬ ((rolling_mean [0, 2] 2)[0]? = some (some ((0 + 2) / 2))) :=
  of_decide_eq_true (by with_unfolding_all rfl)

/-- C3 amended: for every window width W ≥ 1 the smoothed series has
exactly one entry per input position; the entry at position i is defined
exactly when the centred window spanning positions i − W/2 through
i + (W−1)/2 (floor divisions) lies fully within the series, and then
equals the arithmetic mean of those W values; every other entry is
undefined.  For odd W this is the symmetric window
i − (W−1)/2 … i + (W−1)/2; for even W it spans i − W/2 … i + W/2 − 1,
one step earlier than the span i − W/2 + 1 … i + W/2 stated by the
claim. -/
theorem c3_rolling_mean_centered (vals : List ℚ) (w : ℕ) (hpos : 1 ≤ w) :
    (rolling_mean vals w).length = vals.length ∧
      ∀ i : ℕ, i < vals.length →
        (rolling_mean vals w)[i]? =
          some (if w / 2 ≤ i ∧ i + (w - 1) / 2 < vals.length then
            some ((((vals.drop (i - w / 2)).take w).sum) / (w : ℚ))
          else none) := by
  refine ⟨length_rolling_mean vals w, ?_⟩
  intro i hi
  rw [rolling_mean, List.getElem?_map, List.getElem?_range hi]
  simp only [Option.map_some']
  congr 1
  by_cases hc : w / 2 ≤ i ∧ i + (w - 1) / 2 < vals.length
  · rw [if_pos hc, if_pos (by omega)]
    rw [show i + (w - 1) / 2 + 1 - w = i - w / 2 from by omega]
  · rw [if_neg hc, if_neg (by omega)]

theorem c3_witness :
    (1 : ℕ) ≤ 3 ∧
      ((rolling_mean [0, 2, 4] 3).length = ([0, 2, 4] : List ℚ).length ∧
        ∀ i : ℕ, i < ([0, 2, 4] : List ℚ).length →
          (rolling_mean [0, 2, 4] 3)[i]? =
            some (if 3 / 2 ≤ i ∧
                i + (3 - 1) / 2 < ([0, 2, 4] : List ℚ).length then
              some (((([0, 2, 4] : List ℚ).drop (i - 3 / 2)).take 3).sum /
                ((3 : ℕ) : ℚ))
            else none)) :=
  ⟨by decide, c3_rolling_mean_centered [0, 2, 4] 3 (by decide)⟩

/-! ### C7: window-size monotonicity -/

theorem rolling_mean_getElem? (vals : List ℚ) (w i : ℕ)
    (hi : i < vals.length) :
    (rolling_mean vals w)[i]? =
      some (if w ≤ i + (w - 1) / 2 + 1 ∧ i + (w - 1) / 2 < vals.length then
        some ((((vals.drop (i + (w - 1) / 2 + 1 - w)).take w).sum) / (w : ℚ))
      else none) := by
  rw [rolling_mean, List.getElem?_map, List.getElem?_range hi,
    Option.map_some']

/-- C7 counterexample: for the strictly increasing series
[0, 1, 2, 3, 4, 100] over years 2000–2005 (which crosses the threshold 20
exactly once, between 4 and 100), enlarging the window from 4 to 5 moves
the detected crossing year backwards, from 2004 to 2003: the crossing
year is not monotonically non-decreasing in the window size. -/
theorem c7_counterexample :
    List.Pairwise (fun a b : ℚ => a < b) [0, 1, 2, 3, 4, 100] ∧
      year_temp_smoothed
        ⟨[2000, 2001, 2002, 2003, 2004, 2005], [0, 1, 2, 3, 4, 100]⟩ 20 4 =
        .ok 2004 ∧
      year_temp_smoothed
        ⟨[2000, 2001, 2002, 2003, 2004, 2005], [0, 1, 2, 3, 4, 100]⟩ 20 5 =
        .ok 2003 ∧
      (2003 : ℤ) < 2004 :=
  ⟨of_decide_eq_true (by with_unfolding_all rfl), by with_unfolding_all rfl,
    by with_unfolding_all rfl, by decide⟩

/-- For a strictly increasing series and odd w, wherever the (w+1)-window
smoothed value is defined the w-window smoothed value is defined and at
least as large: going from odd w to w+1 extends the centred window one
step backwards, adding one strictly smaller value. -/
theorem smoothed_le_of_odd_step (vals : List ℚ) (w : ℕ) (hw : w % 2 = 1)
    (hp : List.Pairwise (fun a b : ℚ => a < b) vals) (i : ℕ)
    (hi : i < vals.length) (v : ℚ)
    (h : (rolling_mean vals (w + 1))[i]? = some (some v)) :
    ∃ v', (rolling_mean vals w)[i]? = some (some v') ∧ v ≤ v' := by
  rw [rolling_mean_getElem? vals (w + 1) i hi] at h
  by_cases hc : w + 1 ≤ i + (w + 1 - 1) / 2 + 1 ∧
      i + (w + 1 - 1) / 2 < vals.length
  case neg => rw [if_neg hc] at h; simp at h
  rw [if_pos hc] at h
  obtain ⟨hc1, hc2⟩ := hc
  have hk1 : (w + 1 - 1) / 2 = (w - 1) / 2 := by omega
  rw [hk1] at hc1 hc2 h
  have hik : w ≤ i + (w - 1) / 2 := by omega
  have hmN : i + (w - 1) / 2 - w < vals.length := by omega
  have hms : i + (w - 1) / 2 + 1 - (w + 1) = i + (w - 1) / 2 - w := by omega
  have hms2 : i + (w - 1) / 2 + 1 - w = (i + (w - 1) / 2 - w) + 1 := by omega
  have hlenw : ((vals.drop ((i + (w - 1) / 2 - w) + 1)).take w).length = w := by
    simp only [List.length_take, List.length_drop]
    omega
  have htake : (vals.drop (i + (w - 1) / 2 - w)).take (w + 1) =
      vals[i + (w - 1) / 2 - w] ::
        ((vals.drop ((i + (w - 1) / 2 - w) + 1)).take w) := by
    rw [List.drop_eq_getElem_cons hmN, List.take_succ_cons]
  have hbound : ∀ x ∈ (vals.drop ((i + (w - 1) / 2 - w) + 1)).take w,
      vals[i + (w - 1) / 2 - w] ≤ x := by
    intro x hx
    obtain ⟨j, hj, rfl⟩ := List.mem_iff_getElem.mp hx
    have hj2 : j < vals.length - ((i + (w - 1) / 2 - w) + 1) := by
      have := hj
      simp only [List.length_take, List.length_drop] at this
      omega
    simp only [List.getElem_take, List.getElem_drop]
    exact le_of_lt (List.pairwise_iff_getElem.mp hp
      (i + (w - 1) / 2 - w) ((i + (w - 1) / 2 - w) + 1 + j)
      hmN (by omega) (by omega))
  have hS : (w : ℚ) * vals[i + (w - 1) / 2 - w] ≤
      ((vals.drop ((i + (w - 1) / 2 - w) + 1)).take w).sum := by
    have hn := List.card_nsmul_le_sum
      ((vals.drop ((i + (w - 1) / 2 - w) + 1)).take w)
      vals[i + (w - 1) / 2 - w] hbound
    rw [hlenw, nsmul_eq_mul] at hn
    exact hn
  have hwpos : (0 : ℚ) < (w : ℚ) := by
    have : 1 ≤ w := by omega
    exact_mod_cast this
  refine ⟨(((vals.drop ((i + (w - 1) / 2 - w) + 1)).take w).sum) / (w : ℚ),
    ?_, ?_⟩
  · rw [rolling_mean_getElem? vals w i hi, if_pos ⟨by omega, by omega⟩, hms2]
  · rw [hms, htake, List.sum_cons] at h
    have hv : v = (vals[i + (w - 1) / 2 - w] +
        ((vals.drop ((i + (w - 1) / 2 - w) + 1)).take w).sum) /
          ((w : ℚ) + 1) := by
      have := h
      simp only [Option.some_inj] at this
      rw [← this]
      push_cast
      ring
    rw [hv, div_le_div_iff₀ (by linarith) hwpos]
    nlinarith [hS]

theorem qualifying_subset_odd_step (years : List ℤ) (vals : List ℚ)
    (t : ℚ) (w : ℕ) (hw : w % 2 = 1)
    (hp : List.Pairwise (fun a b : ℚ => a < b) vals) :
    qualifying_years years (rolling_mean vals (w + 1)) t ⊆
      qualifying_years years (rolling_mean vals w) t := by
  intro z hz
  obtain ⟨i, h1, v, h2, h3⟩ := mem_qualifying_years.mp hz
  have hi : i < vals.length := by
    obtain ⟨hlt, -⟩ := List.getElem?_eq_some_iff.mp h2
    rwa [length_rolling_mean] at hlt
  obtain ⟨v', hv', hle⟩ := smoothed_le_of_odd_step vals w hw hp i hi v h2
  exact mem_qualifying_years.mpr ⟨i, h1, v', hv', le_trans h3 hle⟩

/-- C7 amended: for a strictly increasing series, enlarging the window
from an odd width w to w+1 (the step at which the centred window grows
backwards) can only delay the detected crossing year or leave it
unchanged: if the (w+1)-smoothed series crosses, the w-smoothed series
crosses no later.  (For the step from an even width to the next odd one
the window grows forwards and the crossing year can move backwards, see
the counterexample.) -/
theorem c7_monotone_window_odd_step (years : List ℤ) (vals : List ℚ)
    (t : ℚ) (w : ℕ) (hw : w % 2 = 1)
    (hp : List.Pairwise (fun a b : ℚ => a < b) vals) (y' : ℤ)
    (h : year_temp_smoothed ⟨years, vals⟩ t (w + 1) = .ok y') :
    ∃ y, year_temp_smoothed ⟨years, vals⟩ t w = .ok y ∧ y ≤ y' := by
  obtain ⟨y, hy, hle⟩ := min?_le_of_subset
    (qualifying_subset_odd_step years vals t w hw hp)
    (year_temp_smoothed_ok_iff.mp h)
  exact ⟨y, year_temp_smoothed_ok_iff.mpr hy, hle⟩

theorem c7_witness :
    (3 : ℕ) % 2 = 1 ∧
      List.Pairwise (fun a b : ℚ => a < b) [0, 1, 2, 3, 4, 100] ∧
      ∃ y, year_temp_smoothed
          ⟨[2000, 2001, 2002, 2003, 2004, 2005], [0, 1, 2, 3, 4, 100]⟩ 20 3 =
          .ok y ∧ y ≤ 2004 :=
  ⟨rfl, of_decide_eq_true (by with_unfolding_all rfl),
    c7_monotone_window_odd_step [2000, 2001, 2002, 2003, 2004, 2005]
      [0, 1, 2, 3, 4, 100] 20 3 rfl
      (of_decide_eq_true (by with_unfolding_all rfl)) 2004
      (by with_unfolding_all rfl)⟩

/-! ### C5: determinism and state-independence of the accumulation cell -/

theorem lookupA_insertA_self (s : Vars) (t : ℚ) (v : List ℤ) :
    lookupA (insertA s t v) t = some v := by
  simp [lookupA, insertA]

theorem lookupA_insertA_ne (s : Vars) (t u : ℚ) (v : List ℤ) (h : u ≠ t) :
    lookupA (insertA s t v) u = lookupA s u := by
  simp [lookupA, insertA, Ne.symm h]

theorem append_err (t : ℚ) (w : ℕ) :
    ∀ (models : List (String × AnomalySeries)) (e : String),
      firstyear_col t w models = .error e →
      ∀ s : Vars, firstyear_rolling_append t w models s = .error e := by
  intro models
  induction models with
  | nil => intro e h s; simp [firstyear_col] at h
  | cons m ms ih =>
    intro e h s
    cases hy : year_temp_smoothed m.2 t w with
    | error e' =>
      simp only [firstyear_col, hy, Except.error.injEq] at h
      subst h
      simp only [firstyear_rolling_append, hy]
    | ok y =>
      cases hcol : firstyear_col t w ms with
      | error e' =>
        simp only [firstyear_col, hy, hcol, Except.error.injEq] at h
        subst h
        simp only [firstyear_rolling_append, hy]
        exact ih e' hcol _
      | ok ys =>
        simp only [firstyear_col, hy, hcol] at h
        exact Except.noConfusion h

theorem append_ok (t : ℚ) (w : ℕ) :
    ∀ (models : List (String × AnomalySeries)) (col : List ℤ),
      firstyear_col t w models = .ok col →
      ∀ (s : Vars) (acc : List ℤ),
        ∃ o, firstyear_rolling_append t w models (insertA s t acc) = .ok o ∧
          lookupA o t = some (acc ++ col) ∧
          ∀ u, u ≠ t → lookupA o u = lookupA s u := by
  intro models
  induction models with
  | nil =>
    intro col h s acc
    simp only [firstyear_col, Except.ok.injEq] at h
    subst h
    exact ⟨insertA s t acc, rfl, by simp [lookupA_insertA_self],
      fun u hu => lookupA_insertA_ne s t u acc hu⟩
  | cons m ms ih =>
    intro col h s acc
    cases hy : year_temp_smoothed m.2 t w with
    | error e =>
      simp only [firstyear_col, hy] at h
      exact Except.noConfusion h
    | ok y =>
      cases hcol : firstyear_col t w ms with
      | error e =>
        simp only [firstyear_col, hy, hcol] at h
        exact Except.noConfusion h
      | ok ys =>
        simp only [firstyear_col, hy, hcol, Except.ok.injEq] at h
        subst h
        obtain ⟨o, ho, hot, hou⟩ := ih ys hcol (insertA s t acc) (acc ++ [y])
        refine ⟨o, ?_, ?_, ?_⟩
        · simp only [firstyear_rolling_append, hy, lookupA_insertA_self,
            Option.getD_some]
          exact ho
        · simp [hot, List.append_assoc]
        · intro u hu
          rw [hou u hu, lookupA_insertA_ne s t u acc hu]

theorem cell_untouched (w : ℕ) (models : List (String × AnomalySeries)) :
    ∀ (temps : List ℚ) (s o : Vars),
      firstyear_cell w models temps s = .ok o →
      ∀ u, u ∉ temps → lookupA o u = lookupA s u := by
  intro temps
  induction temps with
  | nil =>
    intro s o h u hu
    simp only [firstyear_cell, Except.ok.injEq] at h
    subst h
    rfl
  | cons t ts ih =>
    intro s o h u hu
    cases hcol : firstyear_col t w models with
    | error e =>
      simp only [firstyear_cell,
        append_err t w models e hcol (insertA s t [])] at h
      exact Except.noConfusion h
    | ok col =>
      obtain ⟨s₁, hs₁, hs₁t, hs₁u⟩ := append_ok t w models col hcol s []
      simp only [firstyear_cell, hs₁] at h
      have hu1 : u ∉ ts := fun hmem => hu (List.mem_cons_of_mem t hmem)
      have hut : u ≠ t := fun he => hu (he ▸ List.mem_cons_self t ts)
      rw [ih s₁ o h u hu1, hs₁u u hut]

theorem cell_lookup (w : ℕ) (models : List (String × AnomalySeries)) :
    ∀ (temps : List ℚ) (s o : Vars),
      firstyear_cell w models temps s = .ok o →
      ∀ t ∈ temps,
        ∃ col, firstyear_col t w models = .ok col ∧ lookupA o t = some col := by
  intro temps
  induction temps with
  | nil => intro s o h t ht; exact absurd ht (List.not_mem_nil t)
  | cons t₀ ts ih =>
    intro s o h t ht
    cases hcol : firstyear_col t₀ w models with
    | error e =>
      simp only [firstyear_cell,
        append_err t₀ w models e hcol (insertA s t₀ [])] at h
      exact Except.noConfusion h
    | ok col₀ =>
      obtain ⟨s₁, hs₁, hs₁t, hs₁u⟩ := append_ok t₀ w models col₀ hcol s []
      simp only [firstyear_cell, hs₁] at h
      by_cases hts : t ∈ ts
      · exact ih s₁ o h t hts
      · have heq : t = t₀ := by
          rcases List.mem_cons.mp ht with h' | h'
          · exact h'
          · exact absurd h' hts
        subst heq
        refine ⟨col₀, hcol, ?_⟩
        rw [cell_untouched w models ts s₁ o h t hts, hs₁t]
        simp

/-- C5: the accumulation cell is deterministic and carries no hidden
state between calls: for any two initial vars() states (in particular a
fresh state and the state left by a previous run), two successful runs on
identical inputs store identical per-threshold crossing-year lists under
every threshold key.  Instantiating s₂ with the output of the first run
gives idempotence. -/
theorem c5_analyze_deterministic (w : ℕ)
    (models : List (String × AnomalySeries)) (temps : List ℚ)
    (s₁ s₂ o₁ o₂ : Vars)
    (h₁ : firstyear_cell w models temps s₁ = .ok o₁)
    (h₂ : firstyear_cell w models temps s₂ = .ok o₂) :
    ∀ t ∈ temps, lookupA o₁ t = lookupA o₂ t := by
  intro t ht
  obtain ⟨c₁, hc₁, hl₁⟩ := cell_lookup w models temps s₁ o₁ h₁ t ht
  obtain ⟨c₂, hc₂, hl₂⟩ := cell_lookup w models temps s₂ o₂ h₂ t ht
  rw [hl₁, hl₂]
  rw [hc₁] at hc₂
  injection hc₂ with hc
  rw [hc]

theorem c5_witness :
    firstyear_cell 1 [("A", ⟨[2000], [1]⟩)] [0] [] =
      .ok [((0 : ℚ), [2000]), (0, [])] ∧
    firstyear_cell 1 [("A", ⟨[2000], [1]⟩)] [0]
        [((0 : ℚ), [2000]), (0, [])] =
      .ok [((0 : ℚ), [2000]), (0, []), (0, [2000]), (0, [])] ∧
    ∀ t ∈ [(0 : ℚ)],
      lookupA [((0 : ℚ), [2000]), (0, [])] t =
        lookupA [((0 : ℚ), [2000]), (0, []), (0, [2000]), (0, [])] t :=
  ⟨by with_unfolding_all rfl, by with_unfolding_all rfl,
    c5_analyze_deterministic 1 [("A", ⟨[2000], [1]⟩)] [0] []
      [((0 : ℚ), [2000]), (0, [])] [((0 : ℚ), [2000]), (0, [])]
      [((0 : ℚ), [2000]), (0, []), (0, [2000]), (0, [])]
      (by with_unfolding_all rfl) (by with_unfolding_all rfl)⟩

/-! ### C8: the exported, alphabetically sorted crossing table -/

theorem firstyear_col_get (t : ℚ) (w : ℕ) :
    ∀ (models : List (String × AnomalySeries)) (col : List ℤ),
      firstyear_col t w models = .ok col →
      col.length = models.length ∧
        ∀ (mi : ℕ) (m : String × AnomalySeries), models[mi]? = some m →
          ∃ y, col[mi]? = some y ∧ year_temp_smoothed m.2 t w = .ok y := by
  intro models
  induction models with
  | nil =>
    intro col h
    simp only [firstyear_col, Except.ok.injEq] at h
    subst h
    exact ⟨rfl, fun mi m hm => by simp at hm⟩
  | cons m0 ms ih =>
    intro col h
    cases hy : year_temp_smoothed m0.2 t w with
    | error e =>
      simp only [firstyear_col, hy] at h
      exact Except.noConfusion h
    | ok y =>
      cases hcol : firstyear_col t w ms with
      | error e =>
        simp only [firstyear_col, hy, hcol] at h
        exact Except.noConfusion h
      | ok ys =>
        simp only [firstyear_col, hy, hcol, Except.ok.injEq] at h
        subst h
        obtain ⟨hlen, hget⟩ := ih ys hcol
        refine ⟨by simp [hlen], ?_⟩
        intro mi m hm
        cases mi with
        | zero =>
          simp only [List.getElem?_cons_zero, Option.some_inj] at hm
          subst hm
          exact ⟨y, by simp, hy⟩
        | succ mi =>
          simp only [List.getElem?_cons_succ] at hm
          obtain ⟨y', hy', hok⟩ := hget mi m hm
          exact ⟨y', by simpa using hy', hok⟩

theorem table_rows_map_fst (cols : List (List ℤ)) :
    ∀ (models : List (String × AnomalySeries)) (mi : ℕ),
      (table_rows cols models mi).map Prod.fst =
        models.map (fun m => m.1) := by
  intro models
  induction models with
  | nil => intro mi; rfl
  | cons m ms ih => intro mi; simp [table_rows, ih]

theorem mem_table_rows (cols : List (List ℤ)) :
    ∀ (models : List (String × AnomalySeries)) (mi : ℕ)
      (p : String × List ℤ), p ∈ table_rows cols models mi →
      ∃ (j : ℕ) (m : String × AnomalySeries), models[j]? = some m ∧
        p.1 = m.1 ∧ p.2 = cols.map (fun c => c.getD (mi + j) 0) := by
  intro models
  induction models with
  | nil => intro mi p hp; simp [table_rows] at hp
  | cons m0 ms ih =>
    intro mi p hp
    rcases List.mem_cons.mp hp with h | h
    · exact ⟨0, m0, by simp, by rw [h], by rw [h]; simp⟩
    · obtain ⟨j, m, hm, h1, h2⟩ := ih (mi + 1) p h
      refine ⟨j + 1, m, by simpa using hm, h1, ?_⟩
      rw [h2]
      apply List.map_congr_left
      intro c hc
      congr 1
      omega

theorem find?_eq_of_nodup :
    ∀ (models : List (String × AnomalySeries)),
      (models.map (fun m => m.1)).Nodup →
      ∀ m ∈ models, models.find? (fun x => x.1 == m.1) = some m := by
  intro models
  induction models with
  | nil => intro _ m hm; simp at hm
  | cons m0 ms ih =>
    intro hnd m hm
    rw [List.map_cons, List.nodup_cons] at hnd
    obtain ⟨hn0, hnd2⟩ := hnd
    rcases List.mem_cons.mp hm with rfl | hm2
    · simp [List.find?]
    · have hne : (m0.1 == m.1) = false := by
        simp only [beq_eq_false_iff_ne, ne_eq]
        intro he
        exact hn0 (he ▸ List.mem_map_of_mem (fun x => x.1) hm2)
      simp only [List.find?, hne]
      exact ih hnd2 m hm2

theorem eq_of_map_fst_eq (g : String → List ℤ) :
    ∀ (l₁ l₂ : List (String × List ℤ)),
      l₁.map Prod.fst = l₂.map Prod.fst →
      (∀ p ∈ l₁, p.2 = g p.1) → (∀ p ∈ l₂, p.2 = g p.1) → l₁ = l₂ := by
  intro l₁
  induction l₁ with
  | nil =>
    intro l₂ hf _ _
    cases l₂ with
    | nil => rfl
    | cons q qs => simp at hf
  | cons p ps ih =>
    intro l₂ hf h1 h2
    cases l₂ with
    | nil => simp at hf
    | cons q qs =>
      simp only [List.map_cons, List.cons.injEq] at hf
      obtain ⟨hpq, hrest⟩ := hf
      have hp2 := h1 p (List.mem_cons_self p ps)
      have hq2 := h2 q (List.mem_cons_self q qs)
      have hpq2 : p = q := Prod.ext hpq (by rw [hp2, hq2, hpq])
      subst hpq2
      rw [ih qs hrest (fun r hr => h1 r (List.mem_cons_of_mem p hr))
        (fun r hr => h2 r (List.mem_cons_of_mem p hr))]

theorem modelLe_trans (a b c : String × List ℤ) :
    modelLe a b → modelLe b c → modelLe a c := by
  simp only [modelLe, decide_eq_true_eq]
  exact le_trans

theorem modelLe_total (a b : String × List ℤ) :
    modelLe a b || modelLe b a := by
  simp only [modelLe]
  rcases le_total a.1 b.1 with h | h <;> simp [h]

/-- Every row of the sorted table belongs to some model of the ensemble
and holds, per threshold in order, exactly that model's crossing year. -/
theorem warminglevels_row_spec (models : List (String × AnomalySeries))
    (temps : List ℚ) (w : ℕ) (s o : Vars)
    (h : firstyear_cell w models temps s = .ok o) :
    ∀ p ∈ warminglevels_df models temps o,
      ∃ m ∈ models, m.1 = p.1 ∧
        p.2 = temps.map
          (fun tq => (year_temp_smoothed m.2 tq w).toOption.getD 0) := by
  intro p hp
  rw [warminglevels_df, List.mem_mergeSort] at hp
  obtain ⟨j, m, hjm, h1, h2⟩ :=
    mem_table_rows (all_temps_rolling temps o) models 0 p hp
  refine ⟨m, List.getElem?_mem hjm, h1.symm, ?_⟩
  rw [h2, all_temps_rolling, List.map_map]
  apply List.map_congr_left
  intro tq htq
  obtain ⟨col, hcol, hlook⟩ := cell_lookup w models temps s o h tq htq
  obtain ⟨hlen, hget⟩ := firstyear_col_get tq w models col hcol
  obtain ⟨y, hy, hok⟩ := hget j m hjm
  simp only [Function.comp, hlook, Option.getD_some,
    List.getD_eq_getElem?_getD, Nat.zero_add, hy, hok]
  rfl

/-- C8: for a successful run, the exported table has exactly one row per
model identifier, rows ordered alphabetically by identifier, one cell per
threshold holding that model's crossing year, and is the same table for
any iteration order of the ensemble's models. -/
theorem c8_table_sorted_invariant
    (models models' : List (String × AnomalySeries)) (temps : List ℚ)
    (w : ℕ) (s s' o o' : Vars)
    (hnd : (models.map (fun m => m.1)).Nodup)
    (hperm : models'.Perm models)
    (h : firstyear_cell w models temps s = .ok o)
    (h' : firstyear_cell w models' temps s' = .ok o') :
    warminglevels_df models temps o = warminglevels_df models' temps o' ∧
      ((warminglevels_df models temps o).map Prod.fst).Perm
        (models.map (fun m => m.1)) ∧
      List.Pairwise (fun a b : String × List ℤ => a.1 ≤ b.1)
        (warminglevels_df models temps o) ∧
      (∀ p ∈ warminglevels_df models temps o, ∃ m ∈ models, m.1 = p.1 ∧
        p.2 = temps.map
          (fun tq => (year_temp_smoothed m.2 tq w).toOption.getD 0)) ∧
      ∀ m ∈ models, ∀ tq ∈ temps,
        ∃ y, year_temp_smoothed m.2 tq w = .ok y := by
  have hrow := warminglevels_row_spec models temps w s o h
  have hrow' := warminglevels_row_spec models' temps w s' o' h'
  have hsortT : List.Pairwise (fun a b : String × List ℤ => modelLe a b)
      (warminglevels_df models temps o) :=
    List.sorted_mergeSort modelLe_trans modelLe_total _
  have hsortT' : List.Pairwise (fun a b : String × List ℤ => modelLe a b)
      (warminglevels_df models' temps o') :=
    List.sorted_mergeSort modelLe_trans modelLe_total _
  have hle : List.Pairwise (fun a b : String × List ℤ => a.1 ≤ b.1)
      (warminglevels_df models temps o) :=
    hsortT.imp (fun hab => by
      simpa only [modelLe, decide_eq_true_eq] using hab)
  have hle' : List.Pairwise (fun a b : String × List ℤ => a.1 ≤ b.1)
      (warminglevels_df models' temps o') :=
    hsortT'.imp (fun hab => by
      simpa only [modelLe, decide_eq_true_eq] using hab)
  have hpermT : ((warminglevels_df models temps o).map Prod.fst).Perm
      (models.map (fun m => m.1)) := by
    rw [warminglevels_df]
    have := (List.mergeSort_perm
      (table_rows (all_temps_rolling temps o) models 0) modelLe).map Prod.fst
    rwa [table_rows_map_fst] at this
  have hpermT' : ((warminglevels_df models' temps o').map Prod.fst).Perm
      (models.map (fun m => m.1)) := by
    rw [warminglevels_df]
    have h1 := (List.mergeSort_perm
      (table_rows (all_temps_rolling temps o') models' 0) modelLe).map Prod.fst
    rw [table_rows_map_fst] at h1
    exact h1.trans (hperm.map (fun m => m.1))
  have hs1 : List.Sorted (fun a b : String => a ≤ b)
      ((warminglevels_df models temps o).map Prod.fst) :=
    (List.pairwise_map).mpr hle
  have hs2 : List.Sorted (fun a b : String => a ≤ b)
      ((warminglevels_df models' temps o').map Prod.fst) :=
    (List.pairwise_map).mpr hle'
  have hfst : (warminglevels_df models temps o).map Prod.fst =
      (warminglevels_df models' temps o').map Prod.fst :=
    List.eq_of_perm_of_sorted (hpermT.trans hpermT'.symm) hs1 hs2
  have hsnd : ∀ p ∈ warminglevels_df models temps o,
      p.2 = ((models.find? (fun x => x.1 == p.1)).map
        (fun mm => temps.map (fun tq =>
          (year_temp_smoothed mm.2 tq w).toOption.getD 0))).getD [] := by
    intro p hp
    obtain ⟨m, hm, hm1, hm2⟩ := hrow p hp
    rw [← hm1, find?_eq_of_nodup models hnd m hm]
    simpa using hm2
  have hsnd' : ∀ p ∈ warminglevels_df models' temps o',
      p.2 = ((models.find? (fun x => x.1 == p.1)).map
        (fun mm => temps.map (fun tq =>
          (year_temp_smoothed mm.2 tq w).toOption.getD 0))).getD [] := by
    intro p hp
    obtain ⟨m, hm, hm1, hm2⟩ := hrow' p hp
    rw [← hm1, find?_eq_of_nodup models hnd m (hperm.subset hm)]
    simpa using hm2
  refine ⟨eq_of_map_fst_eq
    (fun n => ((models.find? (fun x => x.1 == n)).map
      (fun mm => temps.map (fun tq =>
        (year_temp_smoothed mm.2 tq w).toOption.getD 0))).getD [])
    _ _ hfst hsnd hsnd', hpermT, hle, hrow, ?_⟩
  intro m hm tq htq
  obtain ⟨col, hcol, -⟩ := cell_lookup w models temps s o h tq htq
  obtain ⟨j, hj⟩ := List.mem_iff_getElem?.mp hm
  obtain ⟨-, hget⟩ := firstyear_col_get tq w models col hcol
  obtain ⟨y, -, hok⟩ := hget j m hj
  exact ⟨y, hok⟩

set_option maxRecDepth 4000 in
theorem c8_witness :
    warminglevels_df [("b", ⟨[2001], [2]⟩), ("a", ⟨[2000], [1]⟩)] [0]
        [((0 : ℚ), [2001, 2000]), (0, [2001]), (0, [])] =
      warminglevels_df [("a", ⟨[2000], [1]⟩), ("b", ⟨[2001], [2]⟩)] [0]
        [((0 : ℚ), [2000, 2001]), (0, [2000]), (0, [])] ∧
      ((warminglevels_df [("b", ⟨[2001], [2]⟩), ("a", ⟨[2000], [1]⟩)] [0]
          [((0 : ℚ), [2001, 2000]), (0, [2001]), (0, [])]).map Prod.fst).Perm
        (([("b", ⟨[2001], [2]⟩), ("a", ⟨[2000], [1]⟩)] :
          List (String × AnomalySeries)).map (fun m => m.1)) ∧
      List.Pairwise (fun a b : String × List ℤ => a.1 ≤ b.1)
        (warminglevels_df [("b", ⟨[2001], [2]⟩), ("a", ⟨[2000], [1]⟩)] [0]
          [((0 : ℚ), [2001, 2000]), (0, [2001]), (0, [])]) ∧
      (∀ p ∈ warminglevels_df [("b", ⟨[2001], [2]⟩), ("a", ⟨[2000], [1]⟩)]
          [0] [((0 : ℚ), [2001, 2000]), (0, [2001]), (0, [])],
        ∃ m ∈ ([("b", ⟨[2001], [2]⟩), ("a", ⟨[2000], [1]⟩)] :
            List (String × AnomalySeries)), m.1 = p.1 ∧
          p.2 = ([(0 : ℚ)]).map
            (fun tq => (year_temp_smoothed m.2 tq 1).toOption.getD 0)) ∧
      ∀ m ∈ ([("b", ⟨[2001], [2]⟩), ("a", ⟨[2000], [1]⟩)] :
          List (String × AnomalySeries)), ∀ tq ∈ [(0 : ℚ)],
        ∃ y, year_temp_smoothed m.2 tq 1 = .ok y :=
  c8_table_sorted_invariant
    [("b", ⟨[2001], [2]⟩), ("a", ⟨[2000], [1]⟩)]
    [("a", ⟨[2000], [1]⟩), ("b", ⟨[2001], [2]⟩)]
    [0] 1 [] []
    [((0 : ℚ), [2001, 2000]), (0, [2001]), (0, [])]
    [((0 : ℚ), [2000, 2001]), (0, [2000]), (0, [])]
    (of_decide_eq_true (by with_unfolding_all rfl))
    (of_decide_eq_true (by with_unfolding_all rfl))
    (by with_unfolding_all rfl) (by with_unfolding_all rfl)
